import Mathlib

/-
Verification development for the in-memory typed table store
(DataType / Column / Row / Table classes of the C++ source).

Modelling conventions:
- C++ std::string is modelled as Lean String; positions and lengths are over
  the character list (the program only ever inspects ASCII characters).
- std::unordered_map<std::string, std::string> is modelled as an association
  list observed only through lookup; insertion-or-assignment is modelled by
  consing, so lookup sees the most recent binding.
- Exceptions thrown by Table::insert are modelled with Except: the C++ method
  mutates the row list only in its final statement, after the whole
  validation loop, so a thrown exception corresponds to returning an error
  without producing a new table value.
- Machine int is Nat/Int with the explicit 32-bit range where std::stoi
  enforces it.
-/

/-- Model of isdigit from cctype in the C locale: the ASCII digit codes 48..57. -/
def isDigitB (c : Char) : Bool := decide (48 ≤ c.toNat ∧ c.toNat ≤ 57)

/-- Model of isspace from cctype in the C locale: space (32) and the codes 9..13. -/
def isSpaceB (c : Char) : Bool := decide (c.toNat = 32 ∨ (9 ≤ c.toNat ∧ c.toNat ≤ 13))

/-- Numeric value of an ASCII digit character. -/
def digVal (c : Char) : Nat := c.toNat - 48

/-- Value of a base-10 digit string, most significant digit first. -/
def natOfDigits (ds : List Char) : Nat := ds.foldl (fun a c => 10 * a + digVal c) 0

/-- Consume one optional leading sign, as strtol and strtod do; returns
whether the sign was a minus, and the remaining characters. -/
def splitSign (l : List Char) : Bool × List Char :=
  match l with
  | c :: cs => if c = '-' then (true, cs) else if c = '+' then (false, cs) else (false, c :: cs)
  | [] => (false, [])

/-- Apply a sign to the value of a digit string. -/
def signedVal (neg : Bool) (ds : List Char) : Int :=
  if neg then -(natOfDigits ds : Int) else (natOfDigits ds : Int)

/-- INT_MIN for the 32-bit int used by std::stoi. -/
def intMin : Int := -2147483648

/-- INT_MAX for the 32-bit int used by std::stoi. -/
def intMax : Int := 2147483647

/-- Model of std::stoi(value, &pos) in base 10: skip leading whitespace, read an
optional sign and then digits.  Returns none where the C++ call throws
(invalid_argument when no digits were read, out_of_range when the value does
not fit in int); otherwise returns the value and the unconsumed suffix
(equivalently, pos is the input length minus the suffix length). -/
def stoiModel (cs : List Char) : Option (Int × List Char) :=
  let cs2 := cs.dropWhile isSpaceB
  let sg := splitSign cs2
  let ds := sg.2.takeWhile isDigitB
  let rest := sg.2.dropWhile isDigitB
  if ds = [] then none
  else if signedVal sg.1 ds < intMin ∨ intMax < signedVal sg.1 ds then none
  else some (signedVal sg.1 ds, rest)

/-- IntegerType::validate: empty strings are rejected, then std::stoi must
succeed and consume the entire string (pos == value.size()). -/
def IntegerType.validate (value : String) : Bool :=
  if value.data = [] then false
  else
    match stoiModel value.data with
    | none => false
    | some r => decide (r.2 = [])

/-- StringType::validate: accepts everything. -/
def StringType.validate (_ : String) : Bool := true

/-- BooleanType::validate: exactly the four literal spellings. -/
def BooleanType.validate (value : String) : Bool :=
  decide (value = "true" ∨ value = "false" ∨ value = "1" ∨ value = "0")

/-- DateType::validate: length 10, dashes at positions 4 and 7, digits at the
remaining eight positions.  No calendar validation. -/
def DateType.validate (value : String) : Bool :=
  if value.data.length ≠ 10 then false
  else if value.data.getD 4 ' ' ≠ '-' ∨ value.data.getD 7 ' ' ≠ '-' then false
  else [0, 1, 2, 3, 5, 6, 8, 9].all (fun i => isDigitB (value.data.getD i ' '))

/-- The closed set of DataType subclasses. -/
inductive DataType where
  | IntegerT
  | StringT
  | BooleanT
  | DateT
deriving DecidableEq

/-- Virtual dispatch of DataType::validate. -/
def DataType.validate : DataType → String → Bool
  | .IntegerT, v => IntegerType.validate v
  | .StringT, v => StringType.validate v
  | .BooleanT, v => BooleanType.validate v
  | .DateT, v => DateType.validate v

/-- Column: name, type, nullable flag, primary-key flag, optional foreign key. -/
structure Column where
  name : String
  type : DataType
  nullable : Bool
  primaryKey : Bool
  foreignKey : Option (String × String)
deriving DecidableEq

/-- Column::validate: an empty value is acceptable exactly when the column is
nullable; otherwise the type validator decides. -/
def Column.validate (col : Column) (value : String) : Bool :=
  if value.data = [] then col.nullable else col.type.validate value

/-- A Row's data, and likewise the value map passed to insert: an association
list standing for std::unordered_map, observed through lookup only. -/
abbrev Row := List (String × String)

/-- Model of unordered_map::find, returning the mapped value if present. -/
def lookupV : Row → String → Option String
  | [], _ => none
  | (k, v) :: rest, key => if k = key then some v else lookupV rest key

/-- Model of rowData[key] = value: the new binding shadows any older one. -/
def mapInsert (m : Row) (k v : String) : Row := (k, v) :: m

/-- The three distinct exceptions Table::insert can throw, by their messages. -/
inductive InsertError where
  | missingPrimaryKeyValue (column : String)
  | missingRequiredValue (column : String)
  | invalidColumnValue (column : String) (value : String)
deriving DecidableEq

/-- Table: name, fixed column schema, growable row list. -/
structure Table where
  name : String
  columns : List Column
  rows : List Row
deriving DecidableEq

/-- One iteration of the insert loop for a single column: decide which value
(if any) enters rowData for this column, or which exception is thrown. -/
def colStep (values : Row) (col : Column) : Except InsertError String :=
  match lookupV values col.name with
  | none =>
      if col.primaryKey then .error (.missingPrimaryKeyValue col.name)
      else if !col.nullable then .error (.missingRequiredValue col.name)
      else .ok ""
  | some v =>
      if col.validate v then .ok v
      else .error (.invalidColumnValue col.name v)

/-- The insert loop over the schema, threading the rowData map being built. -/
def insertAux (values : Row) : List Column → Row → Except InsertError Row
  | [], rowData => .ok rowData
  | col :: cols, rowData =>
      match colStep values col with
      | .error e => .error e
      | .ok v => insertAux values cols (mapInsert rowData col.name v)

/-- Table::insert: run the validation loop over all columns; only on full
success is the built row appended (rows.emplace_back is the final statement). -/
def Table.insert (t : Table) (values : Row) : Except InsertError Table :=
  match insertAux values t.columns [] with
  | .error e => .error e
  | .ok rowData => .ok ⟨t.name, t.columns, t.rows ++ [rowData]⟩

/-- The row predicate used by Table::count: entry present and non-empty. -/
def rowHasValue (column : String) (r : Row) : Bool :=
  match lookupV r column with
  | some v => decide (v.data ≠ [])
  | none => false

/-- Table::count: number of rows with a present, non-empty entry for the column. -/
def Table.count (t : Table) (column : String) : Nat :=
  t.rows.foldl (fun c r => if rowHasValue column r then c + 1 else c) 0

/-- The isNumeric check inside Table::sum: find the first schema column with
the given name and test whether its dynamic type is IntegerType. -/
def isIntegerColumn (t : Table) (column : String) : Bool :=
  match t.columns.find? (fun c => decide (c.name = column)) with
  | some c => decide (c.type = DataType.IntegerT)
  | none => false

/-- Model of std::stod restricted to decimal numerals: skip whitespace, read an
optional sign, integer digits, an optional fraction and an optional exponent;
none where stod throws invalid_argument (no digits at all).  Doubles are
modelled as exact rationals; the hexadecimal, infinity and NaN spellings and
the double range checks are outside the inputs this development evaluates. -/
def stodParse (cs : List Char) : Option ℚ :=
  let cs2 := cs.dropWhile isSpaceB
  let sg := splitSign cs2
  let ip := sg.2.takeWhile isDigitB
  let cs3 := sg.2.dropWhile isDigitB
  let fpr : List Char × List Char :=
    match cs3 with
    | '.' :: r => (r.takeWhile isDigitB, r.dropWhile isDigitB)
    | _ => ([], cs3)
  if ip = [] ∧ fpr.1 = [] then none
  else
    let mant : ℚ := (natOfDigits ip : ℚ) + (natOfDigits fpr.1 : ℚ) / (10 ^ fpr.1.length)
    let e : Int :=
      match fpr.2 with
      | c :: r =>
          if c = 'e' ∨ c = 'E' then
            let q := splitSign r
            let eds := q.2.takeWhile isDigitB
            if eds = [] then 0
            else if q.1 then -(natOfDigits eds : Int) else (natOfDigits eds : Int)
          else 0
      | [] => 0
    some ((if sg.1 then -1 else 1) * mant * (10 : ℚ) ^ e)

/-- Table::sum: 0 for a non-Integer (or absent) column; otherwise add the
stod value of every present, non-empty entry, skipping entries whose parse
fails (the catch block ignores them). -/
def Table.sum (t : Table) (column : String) : ℚ :=
  if !isIntegerColumn t column then 0
  else
    t.rows.foldl
      (fun s r =>
        match lookupV r column with
        | some v =>
            if v.data ≠ [] then
              match stodParse v.data with
              | some q => s + q
              | none => s
            else s
        | none => s) 0

/-- Table::avg: count of non-empty entries as denominator, 0 when it is 0. -/
def Table.avg (t : Table) (column : String) : ℚ :=
  if t.count column = 0 then 0 else t.sum column / (t.count column : ℚ)

/-- The value map with the entries for non-schema column names removed. -/
def restrictToSchema (t : Table) (values : Row) : Row :=
  values.filter (fun p => t.columns.any (fun c => decide (c.name = p.1)))

/-- Tables reachable by the program: Database::createTable yields a table with
the given schema and no rows, and every successful Table::insert yields a new
table state. -/
inductive Reachable : Table → Prop where
  | created (name : String) (columns : List Column) : Reachable ⟨name, columns, []⟩
  | step {t t' : Table} {values : Row} : Reachable t → t.insert values = .ok t' → Reachable t'

/-- The Integer rule in the words of the specification: non-empty, an optional
leading sign, then digits spanning the whole string (no whitespace, no range
restriction). -/
def specWholeStringInt (s : String) : Bool :=
  match s.data with
  | [] => false
  | c :: cs =>
      if c = '-' ∨ c = '+' then decide (cs ≠ [] ∧ ∀ d ∈ cs, isDigitB d = true)
      else decide (∀ d ∈ c :: cs, isDigitB d = true)

/-- What std::stoi accepts while consuming the whole string: optional
whitespace, an optional sign, one or more digits to the end, value within the
32-bit int range. -/
def StoiAccepts (s : String) : Prop :=
  ∃ w sgn ds : List Char,
    s.data = w ++ sgn ++ ds ∧
    (∀ c ∈ w, isSpaceB c = true) ∧
    (sgn = [] ∨ sgn = ['+'] ∨ sgn = ['-']) ∧
    ds ≠ [] ∧
    (∀ c ∈ ds, isDigitB c = true) ∧
    intMin ≤ signedVal (decide (sgn = ['-'])) ds ∧
    signedVal (decide (sgn = ['-'])) ds ≤ intMax

/-- The Date rule in the words of the specification: four digits, a dash, two
digits, a dash, two digits. -/
def IsDateShaped (s : String) : Prop :=
  ∃ y m d : List Char,
    s.data = y ++ '-' :: (m ++ '-' :: d) ∧
    y.length = 4 ∧ m.length = 2 ∧ d.length = 2 ∧
    (∀ c ∈ y, isDigitB c = true) ∧ (∀ c ∈ m, isDigitB c = true) ∧ (∀ c ∈ d, isDigitB c = true)

/-- Claim C1: insert is all-or-nothing — it either reports an error (the C++
method throws before touching the row list) or returns the table with name and
schema intact, the old rows unchanged, and exactly one row appended. -/
theorem insert_all_or_nothing (t : Table) (values : Row) :
    (∃ e, t.insert values = Except.error e) ∨
    (∃ r, t.insert values = Except.ok ⟨t.name, t.columns, t.rows ++ [r]⟩) := by
  cases h : insertAux values t.columns [] with
  | error e => exact Or.inl ⟨e, by simp [Table.insert, h]⟩
  | ok r => exact Or.inr ⟨r, by simp [Table.insert, h]⟩

theorem lookupV_filter_keep (values : Row) (q : String × String → Bool) (k : String)
    (hk : ∀ v, q (k, v) = true) :
    lookupV (values.filter q) k = lookupV values k := by
  induction values with
  | nil => rfl
  | cons p rest ih =>
      obtain ⟨k', v'⟩ := p
      by_cases hkk : k' = k
      · subst hkk
        simp [List.filter_cons, hk v', lookupV]
      · cases hq : q (k', v') <;> simp [List.filter_cons, hq, lookupV, hkk, ih]

theorem insertAux_congr (values1 values2 : Row) (cols : List Column) :
    ∀ rd : Row, (∀ c ∈ cols, lookupV values1 c.name = lookupV values2 c.name) →
      insertAux values1 cols rd = insertAux values2 cols rd := by
  induction cols with
  | nil => intro rd _; rfl
  | cons c cols ih =>
      intro rd h
      have hc : colStep values1 c = colStep values2 c := by
        unfold colStep
        rw [h c (List.mem_cons_self c cols)]
      simp only [insertAux]
      rw [hc]
      cases hcs : colStep values2 c with
      | error e => rfl
      | ok v => exact ih _ (fun c' hc' => h c' (List.mem_cons_of_mem c hc'))

/-- Claim C8: value-map entries whose key is not a schema column name are
ignored — insert behaves identically on the map and on its restriction to
schema column names (same success or failure, same error, same appended row). -/
theorem insert_ignores_unknown_keys (t : Table) (values : Row) :
    t.insert values = t.insert (restrictToSchema t values) := by
  have h : ∀ c ∈ t.columns, lookupV values c.name = lookupV (restrictToSchema t values) c.name := by
    intro c hc
    exact (lookupV_filter_keep values _ c.name
      (fun v => List.any_eq_true.mpr ⟨c, hc, by simp⟩)).symm
  unfold Table.insert
  rw [insertAux_congr values (restrictToSchema t values) t.columns [] h]

theorem colStep_ok_val {values : Row} {c : Column} {v : String}
    (h : colStep values c = .ok v) : v = (lookupV values c.name).getD "" := by
  unfold colStep at h
  cases hl : lookupV values c.name with
  | none =>
      rw [hl] at h
      by_cases hpk : c.primaryKey <;> by_cases hnl : c.nullable <;> simp_all
  | some v0 =>
      rw [hl] at h
      by_cases hv : c.validate v0 <;> simp_all

theorem insertAux_ok_colStep {values : Row} : ∀ {cols : List Column} {rd r : Row},
    insertAux values cols rd = .ok r → ∀ c ∈ cols, ∃ v, colStep values c = .ok v := by
  intro cols
  induction cols with
  | nil => intro rd r _ c hc; cases hc
  | cons c0 cols ih =>
      intro rd r h c hc
      rw [insertAux] at h
      cases hs : colStep values c0 with
      | error e => rw [hs] at h; cases h
      | ok v =>
          rw [hs] at h
          rcases List.mem_cons.mp hc with hceq | hmem
          · exact ⟨v, hceq ▸ hs⟩
          · exact ih h c hmem

theorem insertAux_skip_ok {values : Row} : ∀ (pre rest : List Column) (rd : Row),
    (∀ c ∈ pre, ∃ v, colStep values c = .ok v) →
    ∃ rd', insertAux values (pre ++ rest) rd = insertAux values rest rd' := by
  intro pre
  induction pre with
  | nil => intro rest rd _; exact ⟨rd, rfl⟩
  | cons c0 pre ih =>
      intro rest rd h
      obtain ⟨v, hv⟩ := h c0 (List.mem_cons_self c0 pre)
      have : (c0 :: pre) ++ rest = c0 :: (pre ++ rest) := rfl
      rw [this, insertAux, hv]
      exact ih rest (mapInsert rd c0.name v) (fun c hc => h c (List.mem_cons_of_mem c0 hc))

theorem insertAux_error_of_mem {values : Row} {cols : List Column} {c : Column} {e : InsertError}
    (hc : c ∈ cols) (hstep : colStep values c = .error e) (rd : Row) :
    ∃ e', insertAux values cols rd = .error e' := by
  cases h : insertAux values cols rd with
  | error e' => exact ⟨e', rfl⟩
  | ok r =>
      obtain ⟨v, hv⟩ := insertAux_ok_colStep h c hc
      rw [hstep] at hv
      cases hv

theorem lookupV_mapInsert (m : Row) (k v key : String) :
    lookupV (mapInsert m k v) key = if k = key then some v else lookupV m key := rfl

theorem insertAux_ok_lookup {values : Row} : ∀ {cols : List Column} {rd r : Row},
    insertAux values cols rd = .ok r → ∀ k,
      lookupV r k =
        if cols.any (fun c => decide (c.name = k)) then some ((lookupV values k).getD "")
        else lookupV rd k := by
  intro cols
  induction cols with
  | nil => intro rd r h k; cases h; simp
  | cons c0 cols ih =>
      intro rd r h k
      rw [insertAux] at h
      cases hs : colStep values c0 with
      | error e => rw [hs] at h; cases h
      | ok v =>
          rw [hs] at h
          have hval : v = (lookupV values c0.name).getD "" := colStep_ok_val hs
          have := ih h k
          rw [this, List.any_cons]
          by_cases hname : c0.name = k
          · subst hname
            by_cases hany : cols.any (fun c => decide (c.name = c0.name)) = true
            · simp [hany, hval]
            · simp only [Bool.not_eq_true] at hany
              simp [hany, lookupV_mapInsert, hval]
          · by_cases hany : cols.any (fun c => decide (c.name = k)) = true
            · simp [hany, hname]
            · simp only [Bool.not_eq_true] at hany
              simp [hany, hname, lookupV_mapInsert]

theorem insert_ok_elim {t t' : Table} {values : Row} (h : t.insert values = .ok t') :
    ∃ r, insertAux values t.columns [] = .ok r ∧ t' = ⟨t.name, t.columns, t.rows ++ [r]⟩ := by
  unfold Table.insert at h
  cases ha : insertAux values t.columns [] with
  | error e => rw [ha] at h; cases h
  | ok r => rw [ha] at h; exact ⟨r, rfl, (Except.ok.inj h).symm⟩

/-- Counterexample table for claim C2: a missing non-nullable column 'a' sits
before the missing primary-key column 'b' in the schema. -/
def tableC2 : Table :=
  ⟨"t", [⟨"a", DataType.StringT, false, false, none⟩,
         ⟨"b", DataType.IntegerT, false, true, none⟩], []⟩

/-- Claim C2 counterexample: column 'b' is a primary-key column with no entry
in the (empty) value map, yet the insert does not fail with the
missing-primary-key error — it fails with the missing-required-value error for
the earlier column 'a'. -/
theorem insert_missing_pk_error_counterexample :
    tableC2.insert [] = .error (.missingRequiredValue "a") ∧
    (Column.mk "b" DataType.IntegerT false true none) ∈ tableC2.columns ∧
    (Column.mk "b" DataType.IntegerT false true none).primaryKey = true ∧
    lookupV [] (Column.mk "b" DataType.IntegerT false true none).name = none ∧
    ∀ n, tableC2.insert [] ≠ .error (.missingPrimaryKeyValue n) := by
  refine ⟨rfl, by decide, rfl, rfl, ?_⟩
  intro n h
  rw [show tableC2.insert [] = .error (.missingRequiredValue "a") from rfl] at h
  simp at h

/-- Claim C2 (amended): for a schema column with no entry in the value map,
provided every earlier column in schema order passes its per-column check, a
primary-key column makes the insert fail with the missing-primary-key error
and a non-nullable non-primary-key column makes it fail with the
missing-required-value error; a nullable non-primary-key column contributes an
empty-string entry to the appended row whenever the insert succeeds. -/
theorem insert_missing_value_first_failure (t : Table) (values : Row) (c : Column)
    (pre post : List Column)
    (hcols : t.columns = pre ++ c :: post)
    (hpre : ∀ cp ∈ pre, ∃ v, colStep values cp = .ok v)
    (hmiss : lookupV values c.name = none) :
    (c.primaryKey = true → t.insert values = .error (.missingPrimaryKeyValue c.name)) ∧
    (c.primaryKey = false → c.nullable = false →
      t.insert values = .error (.missingRequiredValue c.name)) ∧
    (∀ t', t.insert values = .ok t' →
      ∃ r, t'.rows = t.rows ++ [r] ∧ lookupV r c.name = some "") := by
  refine ⟨?_, ?_, ?_⟩
  · intro hpk
    have hstep : colStep values c = .error (.missingPrimaryKeyValue c.name) := by
      unfold colStep; rw [hmiss]; simp [hpk]
    have haux : insertAux values t.columns [] = .error (.missingPrimaryKeyValue c.name) := by
      rw [hcols]
      obtain ⟨rd', hskip⟩ := insertAux_skip_ok pre (c :: post) [] hpre
      rw [hskip, insertAux, hstep]
    simp [Table.insert, haux]
  · intro hpk hnl
    have hstep : colStep values c = .error (.missingRequiredValue c.name) := by
      unfold colStep; rw [hmiss]; simp [hpk, hnl]
    have haux : insertAux values t.columns [] = .error (.missingRequiredValue c.name) := by
      rw [hcols]
      obtain ⟨rd', hskip⟩ := insertAux_skip_ok pre (c :: post) [] hpre
      rw [hskip, insertAux, hstep]
    simp [Table.insert, haux]
  · intro t' h
    obtain ⟨r, ha, ht'⟩ := insert_ok_elim h
    refine ⟨r, by rw [ht'], ?_⟩
    have hany : t.columns.any (fun cp => decide (cp.name = c.name)) = true := by
      refine List.any_eq_true.mpr ⟨c, ?_, by simp⟩
      rw [hcols]
      exact List.mem_append.mpr (Or.inr (List.mem_cons_self c post))
    have := insertAux_ok_lookup ha c.name
    rw [hany] at this
    simp [this, hmiss]

/-- Witness table for the amended claim C2. -/
def tableC2w : Table := ⟨"t", [⟨"id", DataType.IntegerT, false, true, none⟩], []⟩

/-- Witness for the amended claim C2 at a concrete table and value map. -/
theorem insert_missing_value_first_failure_witness :
    tableC2w.insert [] = .error (.missingPrimaryKeyValue "id") :=
  (insert_missing_value_first_failure tableC2w []
      (Column.mk "id" DataType.IntegerT false true none) [] [] rfl
      (by intro cp hcp; cases hcp) rfl).1 rfl

theorem string_data_nil_iff (v : String) : v.data = [] ↔ v = "" := by
  constructor
  · intro h
    exact String.toList_inj.mp h
  · intro h; subst h; rfl

theorem colStep_ok_cases {values : Row} {c : Column} {v : String}
    (h : colStep values c = .ok v) :
    (lookupV values c.name = none ∧ c.primaryKey = false ∧ c.nullable = true ∧ v = "") ∨
    (lookupV values c.name = some v ∧ c.validate v = true) := by
  unfold colStep at h
  cases hl : lookupV values c.name with
  | none =>
      rw [hl] at h
      by_cases hpk : c.primaryKey
      · simp [hpk] at h
      · by_cases hnl : c.nullable
        · simp only [Bool.not_eq_true] at hpk
          simp [hpk, hnl] at h
          exact Or.inl ⟨rfl, hpk, hnl, h.symm⟩
        · simp only [Bool.not_eq_true] at hpk hnl
          simp [hpk, hnl] at h
  | some v0 =>
      rw [hl] at h
      by_cases hv : c.validate v0
      · simp only [hv, if_true, Except.ok.injEq] at h
        subst h
        exact Or.inr ⟨rfl, hv⟩
      · simp [hv] at h

/-- Counterexample table for claim C4: a primary-key column declared nullable,
holding the row produced by inserting an explicit empty string. -/
def tableC4 : Table :=
  ⟨"t", [⟨"id", DataType.IntegerT, true, true, none⟩], [[("id", "")]]⟩

/-- Claim C4 counterexample: a table reachable by one createTable and one
insert stores an empty string under a primary-key column — Column::validate
accepts the explicit empty value because the column is declared nullable, so
the primary-key-implies-NOT-NULL invariant fails when the nullable flag is
set. -/
theorem reachable_pk_empty_counterexample :
    Reachable tableC4 ∧
    (Column.mk "id" DataType.IntegerT true true none) ∈ tableC4.columns ∧
    (Column.mk "id" DataType.IntegerT true true none).primaryKey = true ∧
    [("id", "")] ∈ tableC4.rows ∧
    lookupV [("id", "")] (Column.mk "id" DataType.IntegerT true true none).name = some "" := by
  refine ⟨?_, by decide, rfl, by decide, rfl⟩
  exact @Reachable.step ⟨"t", [⟨"id", DataType.IntegerT, true, true, none⟩], []⟩ tableC4
    [("id", "")] (Reachable.created "t" [⟨"id", DataType.IntegerT, true, true, none⟩]) rfl

/-- Claim C4 (amended): in every reachable table, every stored row holds a
present, non-empty value for every primary-key column that is declared
non-nullable (for a primary-key column declared nullable, omitting the value
still fails, but a supplied empty string is stored as such). -/
theorem reachable_pk_nonempty {t : Table} (h : Reachable t) :
    ∀ c ∈ t.columns, c.primaryKey = true → c.nullable = false →
    ∀ r ∈ t.rows, ∃ v, lookupV r c.name = some v ∧ v ≠ "" := by
  induction h with
  | created name columns => intro c _ _ _ r hr; cases hr
  | @step t t' values hre hins ih =>
      intro c hc hpk hnn r hr
      obtain ⟨r0, ha, ht'⟩ := insert_ok_elim hins
      rw [ht'] at hc hr
      rcases List.mem_append.mp hr with hold | hnew
      · exact ih c hc hpk hnn r hold
      · have hrr : r = r0 := by simpa using hnew
        subst hrr
        obtain ⟨v, hstep⟩ := insertAux_ok_colStep ha c hc
        rcases colStep_ok_cases hstep with ⟨_, hpkf, _, _⟩ | ⟨hl, hvalid⟩
        · rw [hpk] at hpkf; cases hpkf
        · have hv0 : v ≠ "" := by
            intro he
            subst he
            rw [Column.validate] at hvalid
            simp [hnn] at hvalid
          have hany : t.columns.any (fun cp => decide (cp.name = c.name)) = true :=
            List.any_eq_true.mpr ⟨c, hc, by simp⟩
          have hlook := insertAux_ok_lookup ha c.name
          rw [hany, hl] at hlook
          exact ⟨v, by simpa using hlook, hv0⟩

/-- Witness schema for the amended claim C4. -/
def tableC4w : Table := ⟨"t", [⟨"id", DataType.IntegerT, false, true, none⟩], [[("id", "7")]]⟩

/-- Witness for the amended claim C4: a reachable one-row table with a
non-nullable primary-key column stores a non-empty value under it. -/
theorem reachable_pk_nonempty_witness :
    ∃ v, lookupV [("id", "7")] "id" = some v ∧ v ≠ "" :=
  reachable_pk_nonempty
    (@Reachable.step ⟨"t", [⟨"id", DataType.IntegerT, false, true, none⟩], []⟩ tableC4w
      [("id", "7")]
      (Reachable.created "t" [⟨"id", DataType.IntegerT, false, true, none⟩]) rfl)
    (Column.mk "id" DataType.IntegerT false true none) (by decide) rfl rfl
    [("id", "7")] (by decide)

theorem foldl_count (p : Row → Bool) : ∀ (l : List Row) (n : Nat),
    l.foldl (fun c r => if p r then c + 1 else c) n = n + (l.filter p).length := by
  intro l
  induction l with
  | nil => intro n; simp
  | cons r rest ih =>
      intro n
      cases hp : p r
      · simp [List.foldl_cons, hp, List.filter_cons, ih]
      · simp [List.foldl_cons, hp, List.filter_cons, ih]
        omega

theorem reachable_row_keys {t : Table} (h : Reachable t) :
    ∀ r ∈ t.rows, ∀ k, t.columns.any (fun c => decide (c.name = k)) = false →
      lookupV r k = none := by
  induction h with
  | created name columns => intro r hr; cases hr
  | @step t t' values hre hins ih =>
      intro r hr k hany
      obtain ⟨r0, ha, ht'⟩ := insert_ok_elim hins
      rw [ht'] at hr hany
      rcases List.mem_append.mp hr with hold | hnew
      · exact ih r hold k hany
      · have hrr : r = r0 := by simpa using hnew
        subst hrr
        have hlook := insertAux_ok_lookup ha k
        rw [hany] at hlook
        simpa [lookupV] using hlook

/-- Claim C7: count equals the number of stored rows whose entry for the
column name is present and non-empty; and for a name that is not a schema
column name of a reachable table, count is 0 (rows never hold such a key). -/
theorem count_spec (t : Table) (column : String) (h : Reachable t) :
    t.count column =
      (t.rows.filter (fun r =>
        match lookupV r column with
        | some v => decide (v ≠ "")
        | none => false)).length ∧
    ((∀ c ∈ t.columns, c.name ≠ column) → t.count column = 0) := by
  have hpred : ∀ r : Row, rowHasValue column r =
      (match lookupV r column with
       | some v => decide (v ≠ "")
       | none => false) := by
    intro r
    rw [rowHasValue]
    cases lookupV r column with
    | none => rfl
    | some v =>
        simp only [decide_eq_decide]
        exact not_congr (string_data_nil_iff v)
  have hmain : t.count column =
      (t.rows.filter (fun r =>
        match lookupV r column with
        | some v => decide (v ≠ "")
        | none => false)).length := by
    rw [Table.count, foldl_count, Nat.zero_add]
    congr 1
    exact List.filter_congr (fun r _ => hpred r)
  refine ⟨hmain, ?_⟩
  intro hnot
  rw [hmain]
  have hany : t.columns.any (fun c => decide (c.name = column)) = false := by
    cases hb : t.columns.any (fun c => decide (c.name = column)) with
    | false => rfl
    | true =>
        obtain ⟨c, hc, hdec⟩ := List.any_eq_true.mp hb
        exact absurd (of_decide_eq_true hdec) (hnot c hc)
  have hlen : t.rows.filter (fun r =>
      match lookupV r column with
      | some v => decide (v ≠ "")
      | none => false) = [] := by
    apply List.filter_eq_nil_iff.mpr
    intro r hr
    rw [reachable_row_keys h r hr column hany]
    simp
  rw [hlen]
  rfl

/-- Witness schema for claim C7. -/
def tableC7w : Table := ⟨"t", [⟨"id", DataType.IntegerT, true, false, none⟩], []⟩

/-- Witness for claim C7 at a concrete reachable table: a column name absent
from the schema has count 0. -/
theorem count_spec_witness : Table.count tableC7w "zzz" = 0 :=
  (count_spec tableC7w "zzz"
    (Reachable.created "t" [⟨"id", DataType.IntegerT, true, false, none⟩])).2
    (by decide)

/-- The per-row contribution the insert loop of Table::sum adds for a column:
the stod value of a present, non-empty entry that parses, otherwise 0. -/
def rowSumContribution (column : String) (r : Row) : ℚ :=
  match lookupV r column with
  | some v => if v = "" then 0 else (stodParse v.data).getD 0
  | none => 0

theorem foldl_sum (column : String) : ∀ (l : List Row) (s : ℚ),
    l.foldl
      (fun s r =>
        match lookupV r column with
        | some v =>
            if v.data ≠ [] then
              match stodParse v.data with
              | some q => s + q
              | none => s
            else s
        | none => s) s
      = s + (l.map (rowSumContribution column)).sum := by
  have hstep : ∀ (s : ℚ) (r : Row),
      (match lookupV r column with
       | some v =>
           if v.data ≠ [] then
             match stodParse v.data with
             | some q => s + q
             | none => s
           else s
       | none => s) = s + rowSumContribution column r := by
    intro s r
    rw [rowSumContribution]
    cases lookupV r column with
    | none => simp
    | some v =>
        by_cases hv : v = ""
        · subst hv; simp
        · have hvd : v.data ≠ [] := fun hd => hv ((string_data_nil_iff v).mp hd)
          simp only [hv, hvd, if_true, if_false, ite_not]
          cases stodParse v.data with
          | none => simp
          | some q => simp
  intro l
  induction l with
  | nil => intro s; simp
  | cons r rest ih =>
      intro s
      rw [List.foldl_cons, hstep s r, ih, List.map_cons, List.sum_cons]
      ring

/-- Claim C5: Table::sum returns 0 when the named column's declared type is
not Integer (including a name absent from the schema) and raises no error;
otherwise it returns the sum, over all rows, of the numeric (stod)
interpretation of every present, non-empty value, with values that fail to
parse contributing 0 (skipped) rather than faulting. -/
theorem sum_spec (t : Table) (column : String) :
    (isIntegerColumn t column = false → t.sum column = 0) ∧
    (isIntegerColumn t column = true →
      t.sum column = (t.rows.map (rowSumContribution column)).sum) := by
  constructor
  · intro h
    rw [Table.sum, h]
    rfl
  · intro h
    rw [Table.sum, h]
    simp only [Bool.not_true, Bool.false_eq_true, if_false]
    rw [foldl_sum]
    ring

/-- Witness table for claim C5 with a non-Integer column. -/
def tableC5a : Table := ⟨"t", [⟨"name", DataType.StringT, true, false, none⟩], [[("name", "x")]]⟩

/-- Witness table for claim C5 with an Integer column and two rows. -/
def tableC5b : Table :=
  ⟨"t", [⟨"id", DataType.IntegerT, true, false, none⟩], [[("id", "7")], [("id", "")]]⟩

/-- Witness for claim C5 at concrete tables: a String column sums to 0, an
Integer column sums to the per-row contributions. -/
theorem sum_spec_witness :
    Table.sum tableC5a "name" = 0 ∧
    Table.sum tableC5b "id" = (tableC5b.rows.map (rowSumContribution "id")).sum :=
  ⟨(sum_spec tableC5a "name").1 rfl, (sum_spec tableC5b "id").2 rfl⟩

/-- Claim C6: avg equals sum divided by count, where the denominator is the
same present-and-non-empty count as Table::count, and avg is 0 when that
count is 0 instead of dividing by zero. -/
theorem avg_spec (t : Table) (column : String) :
    (t.count column = 0 → t.avg column = 0) ∧
    (t.count column ≠ 0 → t.avg column = t.sum column / (t.count column : ℚ)) := by
  constructor
  · intro h
    rw [Table.avg, h]
    rfl
  · intro h
    rw [Table.avg, if_neg h]

/-- Empty witness table for claim C6. -/
def tableC6a : Table := ⟨"t", [⟨"id", DataType.IntegerT, true, false, none⟩], []⟩

/-- One-row witness table for claim C6. -/
def tableC6b : Table := ⟨"t", [⟨"id", DataType.IntegerT, true, false, none⟩], [[("id", "8")]]⟩

/-- Witness for claim C6 at concrete tables: zero-count average is 0, and a
non-zero count divides the sum. -/
theorem avg_spec_witness :
    Table.avg tableC6a "id" = 0 ∧
    Table.avg tableC6b "id" = Table.sum tableC6b "id" / (Table.count tableC6b "id" : ℚ) :=
  ⟨(avg_spec tableC6a "id").1 rfl, (avg_spec tableC6b "id").2 (by decide)⟩

theorem dropWhile_append_all {α : Type} (p : α → Bool) :
    ∀ (w l : List α), (∀ c ∈ w, p c = true) → (w ++ l).dropWhile p = l.dropWhile p := by
  intro w
  induction w with
  | nil => intro l _; rfl
  | cons c w ih =>
      intro l h
      rw [List.cons_append, List.dropWhile_cons, h c (List.mem_cons_self c w)]
      simp only [if_true]
      exact ih l (fun x hx => h x (List.mem_cons_of_mem c hx))

theorem dropWhile_head_false {α : Type} (p : α → Bool) (c : α) (l : List α) (h : p c = false) :
    (c :: l).dropWhile p = c :: l := by
  rw [List.dropWhile_cons, h]
  simp

theorem digit_not_space {c : Char} (h : isDigitB c = true) : isSpaceB c = false := by
  rw [isDigitB] at h
  have hn := of_decide_eq_true h
  rw [isSpaceB]
  simp only [decide_eq_false_iff_not]
  omega

theorem digit_ne_minus {c : Char} (h : isDigitB c = true) : c ≠ '-' := by
  intro he
  subst he
  exact absurd h (by decide)

theorem digit_ne_plus {c : Char} (h : isDigitB c = true) : c ≠ '+' := by
  intro he
  subst he
  exact absurd h (by decide)

theorem splitSign_minus (l : List Char) : splitSign ('-' :: l) = (true, l) := rfl

theorem splitSign_plus (l : List Char) : splitSign ('+' :: l) = (false, l) := rfl

theorem splitSign_other {c : Char} (l : List Char) (hm : c ≠ '-') (hp : c ≠ '+') :
    splitSign (c :: l) = (false, c :: l) := by
  show (if c = '-' then ((true, l) : Bool × List Char)
        else if c = '+' then (false, l) else (false, c :: l)) = (false, c :: l)
  rw [if_neg hm, if_neg hp]

/-- Claim C9: the Date validator accepts a text exactly when it consists of
four digits, a dash, two digits, a dash and two digits — length 10, dashes at
positions 4 and 7, ASCII digits elsewhere, with no calendar validation. -/
theorem dateType_validate_iff (s : String) :
    DateType.validate s = true ↔ IsDateShaped s := by
  unfold DateType.validate IsDateShaped
  generalize s.data = cs
  constructor
  · intro h
    have hlen : cs.length = 10 := by
      by_contra hne
      rw [if_pos hne] at h
      cases h
    rw [if_neg (fun hc => hc hlen)] at h
    have hdash : ¬(cs.getD 4 ' ' ≠ '-' ∨ cs.getD 7 ' ' ≠ '-') := by
      intro hc
      rw [if_pos hc] at h
      cases h
    push_neg at hdash
    obtain ⟨h4, h7⟩ := hdash
    rw [if_neg (by push_neg; exact ⟨h4, h7⟩)] at h
    have hdig : ∀ i ∈ [0, 1, 2, 3, 5, 6, 8, 9], isDigitB (cs.getD i ' ') = true := by
      simpa [List.all_eq_true] using h
    rcases cs with _ | ⟨c0, cs⟩
    · exfalso; simp only [List.length_nil] at hlen; omega
    rcases cs with _ | ⟨c1, cs⟩
    · exfalso; simp only [List.length_cons, List.length_nil] at hlen; omega
    rcases cs with _ | ⟨c2, cs⟩
    · exfalso; simp only [List.length_cons, List.length_nil] at hlen; omega
    rcases cs with _ | ⟨c3, cs⟩
    · exfalso; simp only [List.length_cons, List.length_nil] at hlen; omega
    rcases cs with _ | ⟨c4, cs⟩
    · exfalso; simp only [List.length_cons, List.length_nil] at hlen; omega
    rcases cs with _ | ⟨c5, cs⟩
    · exfalso; simp only [List.length_cons, List.length_nil] at hlen; omega
    rcases cs with _ | ⟨c6, cs⟩
    · exfalso; simp only [List.length_cons, List.length_nil] at hlen; omega
    rcases cs with _ | ⟨c7, cs⟩
    · exfalso; simp only [List.length_cons, List.length_nil] at hlen; omega
    rcases cs with _ | ⟨c8, cs⟩
    · exfalso; simp only [List.length_cons, List.length_nil] at hlen; omega
    rcases cs with _ | ⟨c9, cs⟩
    · exfalso; simp only [List.length_cons, List.length_nil] at hlen; omega
    have htail : cs = [] := by
      have hl0 : cs.length = 0 := by
        simp only [List.length_cons, List.length_nil] at hlen
        omega
      exact List.eq_nil_of_length_eq_zero hl0
    subst htail
    have h4' : c4 = '-' := h4
    have h7' : c7 = '-' := h7
    subst h4'
    subst h7'
    refine ⟨[c0, c1, c2, c3], [c5, c6], [c8, c9], rfl, rfl, rfl, rfl, ?_, ?_, ?_⟩
    · intro c hc
      simp only [List.mem_cons, List.not_mem_nil, or_false] at hc
      rcases hc with rfl | rfl | rfl | rfl
      · exact hdig 0 (by simp)
      · exact hdig 1 (by simp)
      · exact hdig 2 (by simp)
      · exact hdig 3 (by simp)
    · intro c hc
      simp only [List.mem_cons, List.not_mem_nil, or_false] at hc
      rcases hc with rfl | rfl
      · exact hdig 5 (by simp)
      · exact hdig 6 (by simp)
    · intro c hc
      simp only [List.mem_cons, List.not_mem_nil, or_false] at hc
      rcases hc with rfl | rfl
      · exact hdig 8 (by simp)
      · exact hdig 9 (by simp)
  · rintro ⟨y, m, d, hsplit, hy, hm, hd, hydig, hmdig, hddig⟩
    rcases y with _ | ⟨y0, y⟩
    · exfalso; simp only [List.length_nil] at hy; omega
    rcases y with _ | ⟨y1, y⟩
    · exfalso; simp only [List.length_cons, List.length_nil] at hy; omega
    rcases y with _ | ⟨y2, y⟩
    · exfalso; simp only [List.length_cons, List.length_nil] at hy; omega
    rcases y with _ | ⟨y3, y⟩
    · exfalso; simp only [List.length_cons, List.length_nil] at hy; omega
    have hytail : y = [] := by
      have : y.length = 0 := by
        simp only [List.length_cons, List.length_nil] at hy
        omega
      exact List.eq_nil_of_length_eq_zero this
    subst hytail
    rcases m with _ | ⟨m0, m⟩
    · exfalso; simp only [List.length_nil] at hm; omega
    rcases m with _ | ⟨m1, m⟩
    · exfalso; simp only [List.length_cons, List.length_nil] at hm; omega
    have hmtail : m = [] := by
      have : m.length = 0 := by
        simp only [List.length_cons, List.length_nil] at hm
        omega
      exact List.eq_nil_of_length_eq_zero this
    subst hmtail
    rcases d with _ | ⟨d0, d⟩
    · exfalso; simp only [List.length_nil] at hd; omega
    rcases d with _ | ⟨d1, d⟩
    · exfalso; simp only [List.length_cons, List.length_nil] at hd; omega
    have hdtail : d = [] := by
      have : d.length = 0 := by
        simp only [List.length_cons, List.length_nil] at hd
        omega
      exact List.eq_nil_of_length_eq_zero this
    subst hdtail
    subst hsplit
    have e0 : isDigitB y0 = true := hydig y0 (by simp)
    have e1 : isDigitB y1 = true := hydig y1 (by simp)
    have e2 : isDigitB y2 = true := hydig y2 (by simp)
    have e3 : isDigitB y3 = true := hydig y3 (by simp)
    have f0 : isDigitB m0 = true := hmdig m0 (by simp)
    have f1 : isDigitB m1 = true := hmdig m1 (by simp)
    have g0 : isDigitB d0 = true := hddig d0 (by simp)
    have g1 : isDigitB d1 = true := hddig d1 (by simp)
    simp [List.getD, e0, e1, e2, e3, f0, f1, g0, g1]

/-- Witness for claim C9: the validator accepts a calendar-invalid but
well-shaped date, via the right-to-left direction of the characterization. -/
theorem dateType_validate_iff_witness : DateType.validate "2024-13-99" = true :=
  (dateType_validate_iff "2024-13-99").mpr
    ⟨['2', '0', '2', '4'], ['1', '3'], ['9', '9'], rfl, rfl, rfl, rfl,
      by decide, by decide, by decide⟩

theorem splitSign_shape (l : List Char) :
    ∃ sgn, (sgn = [] ∨ sgn = ['+'] ∨ sgn = ['-']) ∧ l = sgn ++ (splitSign l).2 ∧
      (splitSign l).1 = decide (sgn = ['-']) := by
  cases l with
  | nil => exact ⟨[], Or.inl rfl, rfl, rfl⟩
  | cons c cst =>
      by_cases hm : c = '-'
      · subst hm
        exact ⟨['-'], Or.inr (Or.inr rfl), rfl, rfl⟩
      · by_cases hp : c = '+'
        · subst hp
          exact ⟨['+'], Or.inr (Or.inl rfl), rfl, rfl⟩
        · refine ⟨[], Or.inl rfl, ?_, ?_⟩
          · simp [splitSign_other cst hm hp]
          · simp [splitSign_other cst hm hp]

theorem stoiModel_unfold (cs : List Char) :
    stoiModel cs =
      (if (splitSign (cs.dropWhile isSpaceB)).2.takeWhile isDigitB = [] then none
       else if signedVal (splitSign (cs.dropWhile isSpaceB)).1
                ((splitSign (cs.dropWhile isSpaceB)).2.takeWhile isDigitB) < intMin ∨
              intMax < signedVal (splitSign (cs.dropWhile isSpaceB)).1
                ((splitSign (cs.dropWhile isSpaceB)).2.takeWhile isDigitB) then none
       else some (signedVal (splitSign (cs.dropWhile isSpaceB)).1
                    ((splitSign (cs.dropWhile isSpaceB)).2.takeWhile isDigitB),
                  (splitSign (cs.dropWhile isSpaceB)).2.dropWhile isDigitB)) := rfl

/-- Claim C3 (amended): the Integer validator accepts a text exactly when,
after optional leading whitespace, an optional sign followed by one or more
base-10 digits spans the rest of the string and the signed value lies within
the 32-bit int range enforced by std::stoi. -/
theorem integerType_validate_iff (s : String) :
    IntegerType.validate s = true ↔ StoiAccepts s := by
  unfold IntegerType.validate StoiAccepts
  generalize s.data = cs
  constructor
  · intro h
    by_cases hnil : cs = []
    · rw [if_pos hnil] at h; cases h
    rw [if_neg hnil] at h
    cases hmod : stoiModel cs with
    | none => rw [hmod] at h; cases h
    | some r =>
        rw [hmod] at h
        have hrest0 : r.2 = [] := of_decide_eq_true h
        rw [stoiModel_unfold] at hmod
        by_cases hde : (splitSign (cs.dropWhile isSpaceB)).2.takeWhile isDigitB = []
        · rw [if_pos hde] at hmod; cases hmod
        rw [if_neg hde] at hmod
        by_cases hrange : signedVal (splitSign (cs.dropWhile isSpaceB)).1
              ((splitSign (cs.dropWhile isSpaceB)).2.takeWhile isDigitB) < intMin ∨
            intMax < signedVal (splitSign (cs.dropWhile isSpaceB)).1
              ((splitSign (cs.dropWhile isSpaceB)).2.takeWhile isDigitB)
        · rw [if_pos hrange] at hmod; cases hmod
        rw [if_neg hrange] at hmod
        push_neg at hrange
        obtain ⟨hlo, hhi⟩ := hrange
        rw [← Option.some.inj hmod] at hrest0
        have hrest : (splitSign (cs.dropWhile isSpaceB)).2.dropWhile isDigitB = [] := hrest0
        have hw : cs = cs.takeWhile isSpaceB ++ cs.dropWhile isSpaceB :=
          (List.takeWhile_append_dropWhile isSpaceB cs).symm
        have hwsp : ∀ c ∈ cs.takeWhile isSpaceB, isSpaceB c = true :=
          fun c hc => List.mem_takeWhile_imp hc
        obtain ⟨sgn, hsgnor, hlsplit, hneg⟩ := splitSign_shape (cs.dropWhile isSpaceB)
        have hsg2 : (splitSign (cs.dropWhile isSpaceB)).2 =
            (splitSign (cs.dropWhile isSpaceB)).2.takeWhile isDigitB := by
          have hx : (splitSign (cs.dropWhile isSpaceB)).2.takeWhile isDigitB ++
              (splitSign (cs.dropWhile isSpaceB)).2.dropWhile isDigitB =
              (splitSign (cs.dropWhile isSpaceB)).2 :=
            List.takeWhile_append_dropWhile isDigitB (splitSign (cs.dropWhile isSpaceB)).2
          rw [hrest, List.append_nil] at hx
          exact hx.symm
        refine ⟨cs.takeWhile isSpaceB, sgn,
          (splitSign (cs.dropWhile isSpaceB)).2.takeWhile isDigitB,
          ?_, hwsp, hsgnor, hde, ?_, ?_, ?_⟩
        · conv_lhs => rw [hw, hlsplit, hsg2]
          rw [List.append_assoc]
        · exact fun c hc => List.mem_takeWhile_imp hc
        · rw [← hneg]; exact hlo
        · rw [← hneg]; exact hhi
  · rintro ⟨w, sgn, ds, hsplit, hws, hsgn, hdsne, hdsdig, hlo, hhi⟩
    have hnil : cs ≠ [] := by
      rw [hsplit]
      intro hh
      rcases List.append_eq_nil.mp hh with ⟨_, h2⟩
      exact hdsne h2
    rw [if_neg hnil]
    have h1 : cs.dropWhile isSpaceB = sgn ++ ds := by
      rw [hsplit, List.append_assoc, dropWhile_append_all isSpaceB w (sgn ++ ds) hws]
      rcases hsgn with h | h | h
      · subst h
        rw [List.nil_append]
        cases ds with
        | nil => exact absurd rfl hdsne
        | cons d ds' =>
            exact dropWhile_head_false isSpaceB d ds'
              (digit_not_space (hdsdig d (List.mem_cons_self d ds')))
      · subst h
        exact dropWhile_head_false isSpaceB '+' ds (by decide)
      · subst h
        exact dropWhile_head_false isSpaceB '-' ds (by decide)
    have hsgeval : splitSign (sgn ++ ds) = (decide (sgn = ['-']), ds) := by
      rcases hsgn with h | h | h
      · subst h
        cases ds with
        | nil => exact absurd rfl hdsne
        | cons d ds' =>
            rw [List.nil_append,
              splitSign_other ds' (digit_ne_minus (hdsdig d (List.mem_cons_self d ds')))
                (digit_ne_plus (hdsdig d (List.mem_cons_self d ds')))]
            rfl
      · subst h
        exact splitSign_plus ds
      · subst h
        exact splitSign_minus ds
    have htake : ds.takeWhile isDigitB = ds :=
      List.takeWhile_eq_self_iff.mpr (fun x hx => hdsdig x hx)
    have hdrop : ds.dropWhile isDigitB = [] :=
      List.dropWhile_eq_nil_iff.mpr (fun x hx => hdsdig x hx)
    rw [stoiModel_unfold, h1, hsgeval]
    simp only [htake, hdrop]
    rw [if_neg hdsne]
    rw [if_neg (by push_neg; exact ⟨hlo, hhi⟩)]
    rfl

/-- Claim C3 counterexample: std::stoi skips leading whitespace, so the
validator accepts a text with a leading space, which is not of the
optional-sign-then-digits whole-string form the claim describes. -/
theorem integer_validate_whitespace_counterexample :
    IntegerType.validate " 12" = true ∧ specWholeStringInt " 12" = false := by
  constructor
  · rfl
  · rfl

/-- Witness for the amended claim C3: a signed numeral is accepted, via the
right-to-left direction of the characterization. -/
theorem integerType_validate_iff_witness : IntegerType.validate "-5" = true :=
  (integerType_validate_iff "-5").mpr
    ⟨[], ['-'], ['5'], rfl, by simp, Or.inr (Or.inr rfl), by simp, by decide,
      by decide, by decide⟩

/-- Claim C10: a non-empty whole-string base-10 numeral whose value exceeds
the 32-bit int range is rejected by the Integer validator, because std::stoi
signals out_of_range and the catch branch returns false. -/
theorem integer_validate_overflow :
    IntegerType.validate "9999999999" = false ∧
    specWholeStringInt "9999999999" = true ∧
    intMax < (9999999999 : Int) := by
  refine ⟨?_, ?_, ?_⟩
  · rfl
  · rfl
  · decide
